import Mathlib

/-!
Verification development for the kiddo_py spatial index.

The repository source under scrutiny only contains the example harness
calling the engine (src/examples.py); the engine itself (construction,
range query, pairwise self-join, parallel layer) is specified in spec.md.
All engine definitions below are therefore modelled from the spec, with
coordinates as rationals and squared distances kept explicit (the reported
Euclidean distance is the square root of the recorded squared distance).
-/

namespace KiddoPy

/-- Modelled from the spec: a floating-point input coordinate of the missing
kiddo_py engine, either a finite value (as a rational) or one of the
non-finite IEEE values that construction and queries must reject. -/
inductive FVal where
  | finite (x : ℚ)
  | nan
  | posInf
  | negInf
deriving DecidableEq, Repr

def FVal.isFinite : FVal → Bool
  | .finite _ => true
  | _ => false

def FVal.toRat : FVal → ℚ
  | .finite x => x
  | _ => 0

/-- Modelled from the spec: the error taxonomy of §7. -/
inductive KdError where
  | emptyInput
  | invalidDimension
  | nonFiniteCoordinate
  | negativeRadius
deriving DecidableEq, Repr

/-- A point is its coordinate vector; its identifier is its row position. -/
abbrev Point := List ℚ

/-- Squared Euclidean distance between two coordinate vectors. -/
def sqDist (q p : Point) : ℚ :=
  ((q.zip p).map (fun ab => (ab.1 - ab.2) * (ab.1 - ab.2))).sum

/-- Coordinate `dim` of the point stored at row `i`. -/
def coordAt (store : List Point) (dim i : ℕ) : ℚ :=
  (store.getD i []).getD dim 0

/-- Modelled from the spec: the deterministic ordering used by the missing
builder to pick the median — coordinate along the split dimension first,
ties broken by original point index. -/
def keyLe (store : List Point) (dim : ℕ) (i j : ℕ) : Prop :=
  coordAt store dim i < coordAt store dim j ∨
    (coordAt store dim i = coordAt store dim j ∧ i ≤ j)

instance (store : List Point) (dim : ℕ) : DecidableRel (keyLe store dim) := by
  intro i j
  unfold keyLe
  infer_instance

instance (store : List Point) (dim : ℕ) : IsTotal ℕ (keyLe store dim) := by
  constructor
  intro i j
  rcases lt_trichotomy (coordAt store dim i) (coordAt store dim j) with h | h | h
  · exact Or.inl (Or.inl h)
  · rcases Nat.le_total i j with hij | hij
    · exact Or.inl (Or.inr ⟨h, hij⟩)
    · exact Or.inr (Or.inr ⟨h.symm, hij⟩)
  · exact Or.inr (Or.inl h)

instance (store : List Point) (dim : ℕ) : IsTrans ℕ (keyLe store dim) := by
  constructor
  intro i j k hij hjk
  rcases hij with h1 | ⟨h1, h1i⟩
  · rcases hjk with h2 | ⟨h2, _⟩
    · exact Or.inl (h1.trans h2)
    · exact Or.inl (h2 ▸ h1)
  · rcases hjk with h2 | ⟨h2, h2i⟩
    · exact Or.inl (h1 ▸ h2)
    · exact Or.inr ⟨h1.trans h2, h1i.trans h2i⟩

/-- Modelled from the spec: default leaf capacity of the missing builder. -/
def leafCapacity : ℕ := 32

/-- Modelled from the spec: a tree node is either an internal split node or
a leaf holding point indices. -/
inductive KdNode where
  | leaf (idxs : List ℕ)
  | internal (splitDim : ℕ) (splitVal : ℚ) (left right : KdNode)
deriving Repr, DecidableEq

/-- Modelled from the spec: the missing recursive builder. A subset of at
most `leafCapacity` indices becomes a leaf; otherwise the subset is ordered
by coordinate along the cycling split dimension (ties by original index),
split at the median position, and both halves are built recursively. -/
def buildNode (store : List Point) (d : ℕ) (idxs : List ℕ) (depth : ℕ) : KdNode :=
  if h : idxs.length ≤ leafCapacity then .leaf idxs
  else
    let dim := depth % d
    let sorted := idxs.insertionSort (keyLe store dim)
    let m := idxs.length / 2
    .internal dim (coordAt store dim ((sorted.drop m).headD 0))
      (buildNode store d (sorted.take m) (depth + 1))
      (buildNode store d (sorted.drop m) (depth + 1))
termination_by idxs.length
decreasing_by
  · have h32 : 32 < idxs.length := by simpa [leafCapacity] using h
    simp only [List.length_take, List.length_insertionSort]
    omega
  · have h32 : 32 < idxs.length := by simpa [leafCapacity] using h
    simp only [List.length_drop, List.length_insertionSort]
    omega

/-- Modelled from the spec: the immutable index owning the point store and
the tree. -/
structure Index where
  dims : ℕ
  store : List Point
  root : KdNode
deriving Repr, DecidableEq

/-- Modelled from the spec: input validation at construction (§4.1, §7). -/
def validatePoints (d : ℕ) (pts : List (List FVal)) : Option KdError :=
  if pts.isEmpty then some .emptyInput
  else if pts.any (fun p => p.length != d) then some .invalidDimension
  else if pts.any (fun p => p.any (fun c => !c.isFinite)) then some .nonFiniteCoordinate
  else none

/-- Modelled from the spec: the missing one-shot build call. -/
def build (d : ℕ) (pts : List (List FVal)) : Except KdError Index :=
  match validatePoints d pts with
  | some e => .error e
  | none =>
    let store := pts.map (fun p => p.map FVal.toRat)
    .ok ⟨d, store, buildNode store d (List.range store.length) 0⟩

/-- Modelled from the spec: the missing branch-and-bound traversal. At an
internal node the near child is always visited and the far child only when
the squared hyperplane distance is within the squared radius; at a leaf
every stored point is tested exactly. Returns matching point indices. -/
def inRad (store : List Point) (q : Point) (r2 : ℚ) (i : ℕ) : Bool :=
  decide (sqDist q (store.getD i []) ≤ r2)

def searchNode (store : List Point) (q : Point) (r2 : ℚ) : KdNode → List ℕ
  | .leaf idxs => idxs.filter (inRad store q r2)
  | .internal dim v l r =>
    let diff := q.getD dim 0 - v
    if diff < 0 then
      searchNode store q r2 l ++ (if diff * diff ≤ r2 then searchNode store q r2 r else [])
    else
      (if diff * diff ≤ r2 then searchNode store q r2 l else []) ++ searchNode store q r2 r

/-- All point indices stored in the leaves of a node, in traversal order. -/
def coveredIdxs : KdNode → List ℕ
  | .leaf idxs => idxs
  | .internal _ _ l r => coveredIdxs l ++ coveredIdxs r

/-- Modelled from the spec: contiguous chunking used by the parallel layer;
each chunk holds `k + 1` elements except possibly the last. -/
def chunkList (k : ℕ) : List α → List (List α)
  | [] => []
  | x :: xs => (x :: xs.take k) :: chunkList k (xs.drop k)
termination_by l => l.length
decreasing_by
  simp only [List.length_drop, List.length_cons]
  omega

/-- Modelled from the spec: chunk size derived from the fixed worker pool. -/
def chunkSize : ℕ := 1023

/-- Result rows for one query point: (queryIndex, pointIndex, squared distance). -/
def queryRows (idx : Index) (qi : ℕ) (q : Point) (r2 : ℚ) : List (ℕ × ℕ × ℚ) :=
  (searchNode idx.store q r2 idx.root).map
    (fun pi => (qi, pi, sqDist q (idx.store.getD pi [])))

/-- Sequential range-query engine over an indexed query list. -/
def withinSeq (idx : Index) (iqs : List (ℕ × Point)) (r2 : ℚ) : List (ℕ × ℕ × ℚ) :=
  iqs.flatMap (fun iq => queryRows idx iq.1 iq.2 r2)

/-- Modelled from the spec: query-side validation (§4.2, §7). -/
def validateQueries (d : ℕ) (qs : List (List FVal)) : Option KdError :=
  if qs.any (fun p => p.length != d) then some .invalidDimension
  else if qs.any (fun p => p.any (fun c => !c.isFinite)) then some .nonFiniteCoordinate
  else none

/-- Modelled from the spec: the missing range-query entry point. Validates
radius and query points, then runs either the sequential engine or the
parallel layer (chunk, run per chunk, concatenate in order). Rows carry the
squared distance; the reported distance is its square root. -/
def withinUnsorted (idx : Index) (qs : List (List FVal)) (radius : ℚ) (parallel : Bool) :
    Except KdError (List (ℕ × ℕ × ℚ)) :=
  if radius < 0 then .error .negativeRadius
  else
    match validateQueries idx.dims qs with
    | some e => .error e
    | none =>
      let iqs := (qs.map (fun p => p.map FVal.toRat)).enum
      let r2 := radius * radius
      if parallel then
        .ok ((chunkList chunkSize iqs).flatMap (fun c => withinSeq idx c r2))
      else
        .ok (withinSeq idx iqs r2)

/-- Pair rows contributed by outer point `i`: a radius query at point `i`
restricted to candidates with larger index (spec §4.3 strategy (a)). -/
def pairRows (idx : Index) (i : ℕ) (r2 : ℚ) : List (ℕ × ℕ × ℚ) :=
  ((searchNode idx.store (idx.store.getD i []) r2 idx.root).filter (fun j => i < j)).map
    (fun j => (i, j, sqDist (idx.store.getD i []) (idx.store.getD j [])))

/-- Sequential pairwise self-join over a list of outer indices. -/
def pairsSeq (idx : Index) (is : List ℕ) (r2 : ℚ) : List (ℕ × ℕ × ℚ) :=
  is.flatMap (fun i => pairRows idx i r2)

/-- Modelled from the spec: the missing pairwise self-join entry point. -/
def queryPairs (idx : Index) (radius : ℚ) (parallel : Bool) :
    Except KdError (List (ℕ × ℕ × ℚ)) :=
  if radius < 0 then .error .negativeRadius
  else
    let r2 := radius * radius
    let is := List.range idx.store.length
    if parallel then
      .ok ((chunkList chunkSize is).flatMap (fun c => pairsSeq idx c r2))
    else
      .ok (pairsSeq idx is r2)

/-- Explicit state-passing view of a range query: the operation returns the
(unchanged) index together with its result, making the absence of any
mutation entry point a provable statement. -/
def withinUnsortedOp (idx : Index) (qs : List (List FVal)) (radius : ℚ) (par : Bool) :
    Index × Except KdError (List (ℕ × ℕ × ℚ)) :=
  (idx, withinUnsorted idx qs radius par)

/-- Explicit state-passing view of a pairwise self-join. -/
def queryPairsOp (idx : Index) (radius : ℚ) (par : Bool) :
    Index × Except KdError (List (ℕ × ℕ × ℚ)) :=
  (idx, queryPairs idx radius par)

/-- The concrete scenario of spec §8: three indexed points in the plane. -/
def demoPts : List (List FVal) :=
  [[.finite 0, .finite 0], [.finite 0, .finite 3], [.finite 4, .finite 0]]

/-- The index the model builds over `demoPts` (three points fit in one leaf). -/
def demoIdx : Index := ⟨2, [[0, 0], [0, 3], [4, 0]], .leaf [0, 1, 2]⟩

/-- Exhaustive brute-force oracle for range queries (spec §8): for every
query point, test every indexed point by its true (squared) distance. -/
def bruteWithin (store : List Point) (qs : List Point) (r2 : ℚ) : List (ℕ × ℕ × ℚ) :=
  qs.enum.flatMap (fun iq =>
    ((List.range store.length).filter (inRad store iq.2 r2)).map
      (fun pi => (iq.1, pi, sqDist iq.2 (store.getD pi []))))

/-- Exhaustive upper-triangular brute-force oracle for pairs (spec §8):
all pairs i < j of indexed points filtered by the radius. -/
def brutePairs (store : List Point) (r2 : ℚ) : List (ℕ × ℕ × ℚ) :=
  (List.range store.length).flatMap (fun i =>
    ((List.range store.length).filter
        (fun j => decide (i < j) && inRad store (store.getD i []) r2 j)).map
      (fun j => (i, j, sqDist (store.getD i []) (store.getD j []))))

/-! ### Basic lemmas about distances and the split ordering -/

theorem sqDist_nonneg (q p : Point) : 0 ≤ sqDist q p := by
  apply List.sum_nonneg
  intro x hx
  rcases List.mem_map.1 hx with ⟨ab, _, rfl⟩
  exact mul_self_nonneg _

theorem sqDist_self (p : Point) : sqDist p p = 0 := by
  induction p with
  | nil => rfl
  | cons a t ih =>
    simp only [sqDist, List.zip_cons_cons, List.map_cons, List.sum_cons] at *
    simpa using ih

theorem coord_sq_le_sqDist {q p : Point} {d dim : ℕ} (hq : q.length = d)
    (hp : p.length = d) (hdim : dim < d) :
    (q.getD dim 0 - p.getD dim 0) * (q.getD dim 0 - p.getD dim 0) ≤ sqDist q p := by
  have hdq : dim < q.length := by omega
  have hdp : dim < p.length := by omega
  have hdz : dim < (q.zip p).length := by
    simp only [List.length_zip]
    omega
  have hzip : (q.zip p).get ⟨dim, hdz⟩ = (q.get ⟨dim, hdq⟩, p.get ⟨dim, hdp⟩) :=
    List.get_zip
  have hq0 : q.getD dim 0 = q.get ⟨dim, hdq⟩ := by
    rw [List.getD_eq_getElem q 0 hdq]
    simp
  have hp0 : p.getD dim 0 = p.get ⟨dim, hdp⟩ := by
    rw [List.getD_eq_getElem p 0 hdp]
    simp
  have hmem2 : (((q.zip p).get ⟨dim, hdz⟩).1 - ((q.zip p).get ⟨dim, hdz⟩).2) * (((q.zip p).get ⟨dim, hdz⟩).1 - ((q.zip p).get ⟨dim, hdz⟩).2) ∈
      (q.zip p).map (fun ab => (ab.1 - ab.2) * (ab.1 - ab.2)) :=
    List.mem_map_of_mem _ (List.get_mem _ _ _)
  have hle := List.single_le_sum (l := (q.zip p).map (fun ab => (ab.1 - ab.2) * (ab.1 - ab.2)))
    (fun x hx => by
      rcases List.mem_map.1 hx with ⟨ab, _, rfl⟩
      exact mul_self_nonneg _) _ hmem2
  rw [sqDist]
  calc (q.getD dim 0 - p.getD dim 0) * (q.getD dim 0 - p.getD dim 0)
      = (((q.zip p).get ⟨dim, hdz⟩).1 - ((q.zip p).get ⟨dim, hdz⟩).2) * (((q.zip p).get ⟨dim, hdz⟩).1 - ((q.zip p).get ⟨dim, hdz⟩).2) := by
        rw [hzip, hq0, hp0]
    _ ≤ _ := hle

theorem keyLe_coord_le {store : List Point} {dim i j : ℕ}
    (h : keyLe store dim i j) : coordAt store dim i ≤ coordAt store dim j := by
  rcases h with h | ⟨h, _⟩
  · exact le_of_lt h
  · exact le_of_eq h

/-! ### Equation lemmas for the builder and the traversal -/

theorem buildNode_leaf (store : List Point) (d : ℕ) (idxs : List ℕ) (depth : ℕ)
    (h : idxs.length ≤ leafCapacity) :
    buildNode store d idxs depth = .leaf idxs := by
  rw [buildNode, dif_pos h]

theorem buildNode_split (store : List Point) (d : ℕ) (idxs : List ℕ) (depth : ℕ)
    (h : ¬ idxs.length ≤ leafCapacity) :
    buildNode store d idxs depth =
      .internal (depth % d)
        (coordAt store (depth % d)
          (((idxs.insertionSort (keyLe store (depth % d))).drop (idxs.length / 2)).headD 0))
        (buildNode store d
          ((idxs.insertionSort (keyLe store (depth % d))).take (idxs.length / 2)) (depth + 1))
        (buildNode store d
          ((idxs.insertionSort (keyLe store (depth % d))).drop (idxs.length / 2)) (depth + 1)) := by
  rw [buildNode, dif_neg h]

theorem searchNode_leaf (store : List Point) (q : Point) (r2 : ℚ) (idxs : List ℕ) :
    searchNode store q r2 (.leaf idxs) = idxs.filter (inRad store q r2) := rfl

theorem searchNode_internal (store : List Point) (q : Point) (r2 : ℚ)
    (dim : ℕ) (v : ℚ) (l r : KdNode) :
    searchNode store q r2 (.internal dim v l r) =
      if q.getD dim 0 - v < 0 then
        searchNode store q r2 l ++
          (if (q.getD dim 0 - v) * (q.getD dim 0 - v) ≤ r2 then searchNode store q r2 r else [])
      else
        (if (q.getD dim 0 - v) * (q.getD dim 0 - v) ≤ r2 then searchNode store q r2 l else []) ++
          searchNode store q r2 r := rfl

/-! ### Every index lands in exactly one leaf -/

theorem coveredIdxs_buildNode (store : List Point) (d : ℕ) :
    ∀ n idxs depth, idxs.length ≤ n →
      (coveredIdxs (buildNode store d idxs depth)).Perm idxs := by
  intro n
  induction n with
  | zero =>
    intro idxs depth hlen
    have h0 : idxs = [] := List.length_eq_zero.1 (Nat.le_zero.1 hlen)
    subst h0
    rw [buildNode_leaf store d [] depth (by simp [leafCapacity])]
    exact List.Perm.refl _
  | succ n ih =>
    intro idxs depth hlen
    by_cases hcap : idxs.length ≤ leafCapacity
    · rw [buildNode_leaf store d idxs depth hcap]
      exact List.Perm.refl _
    · rw [buildNode_split store d idxs depth hcap]
      have hcap32 : 32 < idxs.length := by simpa [leafCapacity] using hcap
      have hperm : (idxs.insertionSort (keyLe store (depth % d))).Perm idxs :=
        List.perm_insertionSort _ _
      have hslen : (idxs.insertionSort (keyLe store (depth % d))).length = idxs.length :=
        hperm.length_eq
      have ihL := ih ((idxs.insertionSort (keyLe store (depth % d))).take (idxs.length / 2))
        (depth + 1) (by rw [List.length_take]; omega)
      have ihR := ih ((idxs.insertionSort (keyLe store (depth % d))).drop (idxs.length / 2))
        (depth + 1) (by rw [List.length_drop]; omega)
      have happ := ihL.append ihR
      rw [List.take_append_drop] at happ
      exact happ.trans hperm

/-! ### Completeness and soundness of the pruned traversal

Searching the tree built over an index subset returns exactly the in-radius
members of that subset: pruning never drops an in-radius point and the leaf
test never admits an out-of-radius one. -/

theorem searchNode_buildNode (store : List Point) (d : ℕ) (q : Point) (r2 : ℚ)
    (hd : 0 < d) (hq : q.length = d) :
    ∀ n idxs depth, idxs.length ≤ n → (∀ i ∈ idxs, (store.getD i []).length = d) →
      (searchNode store q r2 (buildNode store d idxs depth)).Perm
        (idxs.filter (inRad store q r2)) := by
  intro n
  induction n with
  | zero =>
    intro idxs depth hlen hmem
    have h0 : idxs = [] := List.length_eq_zero.1 (Nat.le_zero.1 hlen)
    subst h0
    rw [buildNode_leaf store d [] depth (by simp [leafCapacity]), searchNode_leaf]
  | succ n ih =>
    intro idxs depth hlen hmem
    by_cases hcap : idxs.length ≤ leafCapacity
    · rw [buildNode_leaf store d idxs depth hcap, searchNode_leaf]
    · have hcap32 : 32 < idxs.length := by simpa [leafCapacity] using hcap
      have hdim : depth % d < d := Nat.mod_lt _ hd
      have hperm : (idxs.insertionSort (keyLe store (depth % d))).Perm idxs :=
        List.perm_insertionSort _ _
      have hslen : (idxs.insertionSort (keyLe store (depth % d))).length = idxs.length :=
        hperm.length_eq
      have hsort : List.Sorted (keyLe store (depth % d))
          (idxs.insertionSort (keyLe store (depth % d))) :=
        List.sorted_insertionSort _ _
      set sorted := idxs.insertionSort (keyLe store (depth % d)) with hsorteddef
      set m := idxs.length / 2 with hmdef
      have hsplit : sorted.take m ++ sorted.drop m = sorted := List.take_append_drop m sorted
      have hlenR : (sorted.drop m).length = idxs.length - m := by
        rw [List.length_drop, hslen]
      have hRne : sorted.drop m ≠ [] := by
        intro hnil
        rw [hnil] at hlenR
        simp only [List.length_nil] at hlenR
        omega
      obtain ⟨hh, tt, hR⟩ := List.exists_cons_of_ne_nil hRne
      have hpairs := List.pairwise_append.1 (hsplit ▸ hsort)
      have hcross : ∀ a ∈ sorted.take m, ∀ b ∈ sorted.drop m,
          keyLe store (depth % d) a b := hpairs.2.2
      have hsortR : List.Sorted (keyLe store (depth % d)) (sorted.drop m) := hpairs.2.1
      have hheadD : (sorted.drop m).headD 0 = hh := by rw [hR]; rfl
      have hvleR : ∀ j ∈ sorted.drop m,
          coordAt store (depth % d) ((sorted.drop m).headD 0) ≤ coordAt store (depth % d) j := by
        intro j hj
        rw [hheadD]
        rw [hR] at hj
        rcases List.mem_cons.1 hj with rfl | hj2
        · exact le_refl _
        · exact keyLe_coord_le (List.rel_of_sorted_cons (hR ▸ hsortR) _ hj2)
      have hleL : ∀ i ∈ sorted.take m,
          coordAt store (depth % d) i ≤ coordAt store (depth % d) ((sorted.drop m).headD 0) := by
        intro i hi
        rw [hheadD]
        exact keyLe_coord_le (hcross i hi hh (by rw [hR]; exact List.mem_cons_self _ _))
      have hmemL : ∀ i ∈ sorted.take m, (store.getD i []).length = d := fun i hi =>
        hmem i (hperm.mem_iff.1 (List.take_subset _ _ hi))
      have hmemR : ∀ i ∈ sorted.drop m, (store.getD i []).length = d := fun i hi =>
        hmem i (hperm.mem_iff.1 (List.drop_subset _ _ hi))
      have ihL := ih (sorted.take m) (depth + 1)
        (by rw [List.length_take]; omega) hmemL
      have ihR := ih (sorted.drop m) (depth + 1)
        (by rw [List.length_drop]; omega) hmemR
      have hfperm : (sorted.filter (inRad store q r2)).Perm (idxs.filter (inRad store q r2)) :=
        hperm.filter _
      have hfsplit : (sorted.take m).filter (inRad store q r2) ++
          (sorted.drop m).filter (inRad store q r2) = sorted.filter (inRad store q r2) := by
        rw [← List.filter_append, hsplit]
      rw [buildNode_split store d idxs depth hcap, searchNode_internal]
      by_cases hside :
          q.getD (depth % d) 0 - coordAt store (depth % d) ((sorted.drop m).headD 0) < 0
      · rw [if_pos hside]
        by_cases hprune :
            (q.getD (depth % d) 0 - coordAt store (depth % d) ((sorted.drop m).headD 0)) *
              (q.getD (depth % d) 0 - coordAt store (depth % d) ((sorted.drop m).headD 0)) ≤ r2
        · rw [if_pos hprune]
          have happ := ihL.append ihR
          rw [hfsplit] at happ
          exact happ.trans hfperm
        · rw [if_neg hprune]
          have hempty : (sorted.drop m).filter (inRad store q r2) = [] := by
            rw [List.filter_eq_nil_iff]
            intro j hj
            have hvj := hvleR j hj
            have hlenj := hmemR j hj
            have hbound := coord_sq_le_sqDist hq hlenj hdim
            simp only [inRad, decide_eq_true_eq]
            intro hcon
            have hc : coordAt store (depth % d) j = (store.getD j []).getD (depth % d) 0 := rfl
            rw [← hc] at hbound
            have hmono : (q.getD (depth % d) 0 -
                coordAt store (depth % d) ((sorted.drop m).headD 0)) *
                (q.getD (depth % d) 0 -
                  coordAt store (depth % d) ((sorted.drop m).headD 0)) ≤
                (q.getD (depth % d) 0 - coordAt store (depth % d) j) *
                  (q.getD (depth % d) 0 - coordAt store (depth % d) j) := by
              nlinarith [hside, hvj]
            nlinarith [hbound, hcon, hmono, hprune]
          rw [List.append_nil]
          have hgoal : ((sorted.take m).filter (inRad store q r2)).Perm
              (idxs.filter (inRad store q r2)) := by
            have heq : (sorted.take m).filter (inRad store q r2) =
                (sorted.take m).filter (inRad store q r2) ++
                  (sorted.drop m).filter (inRad store q r2) := by
              rw [hempty, List.append_nil]
            rw [heq, hfsplit]
            exact hfperm
          exact ihL.trans hgoal
      · rw [if_neg hside]
        by_cases hprune :
            (q.getD (depth % d) 0 - coordAt store (depth % d) ((sorted.drop m).headD 0)) *
              (q.getD (depth % d) 0 - coordAt store (depth % d) ((sorted.drop m).headD 0)) ≤ r2
        · rw [if_pos hprune]
          have happ := ihL.append ihR
          rw [hfsplit] at happ
          exact happ.trans hfperm
        · rw [if_neg hprune]
          have hempty : (sorted.take m).filter (inRad store q r2) = [] := by
            rw [List.filter_eq_nil_iff]
            intro i hi
            have hvi := hleL i hi
            have hleni := hmemL i hi
            have hbound := coord_sq_le_sqDist hq hleni hdim
            simp only [inRad, decide_eq_true_eq]
            intro hcon
            have hc : coordAt store (depth % d) i = (store.getD i []).getD (depth % d) 0 := rfl
            rw [← hc] at hbound
            have hmono : (q.getD (depth % d) 0 -
                coordAt store (depth % d) ((sorted.drop m).headD 0)) *
                (q.getD (depth % d) 0 -
                  coordAt store (depth % d) ((sorted.drop m).headD 0)) ≤
                (q.getD (depth % d) 0 - coordAt store (depth % d) i) *
                  (q.getD (depth % d) 0 - coordAt store (depth % d) i) := by
              nlinarith [hside, hvi]
            nlinarith [hbound, hcon, hmono, hprune]
          rw [List.nil_append]
          have hgoal : ((sorted.drop m).filter (inRad store q r2)).Perm
              (idxs.filter (inRad store q r2)) := by
            have heq : (sorted.drop m).filter (inRad store q r2) =
                (sorted.take m).filter (inRad store q r2) ++
                  (sorted.drop m).filter (inRad store q r2) := by
              rw [hempty, List.nil_append]
            rw [heq, hfsplit]
            exact hfperm
          exact ihR.trans hgoal

/-! ### Characterization of build results -/

theorem build_ok_spec {d : ℕ} {pts : List (List FVal)} {idx : Index}
    (h : build d pts = .ok idx) :
    idx.dims = d ∧
    idx.store = pts.map (fun p => p.map FVal.toRat) ∧
    idx.root = buildNode idx.store d (List.range idx.store.length) 0 ∧
    pts ≠ [] ∧ (∀ p ∈ pts, p.length = d) ∧
    (∀ p ∈ pts, ∀ c ∈ p, c.isFinite = true) := by
  unfold build at h
  cases hv : validatePoints d pts with
  | some e =>
    rw [hv] at h
    exact absurd h (by simp)
  | none =>
    rw [hv] at h
    simp only [Except.ok.injEq] at h
    unfold validatePoints at hv
    split_ifs at hv with h1 h2 h3
    have hne : pts ≠ [] := by
      intro hnil
      rw [hnil] at h1
      simp at h1
    have hdims : ∀ p ∈ pts, p.length = d := by
      intro p hp
      by_contra hne2
      exact h2 (List.any_eq_true.2 ⟨p, hp, by simpa using hne2⟩)
    have hfin : ∀ p ∈ pts, ∀ c ∈ p, c.isFinite = true := by
      intro p hp c hc
      by_contra hne3
      exact h3 (List.any_eq_true.2 ⟨p, hp, List.any_eq_true.2 ⟨c, hc, by simpa using hne3⟩⟩)
    subst h
    exact ⟨rfl, rfl, rfl, hne, hdims, hfin⟩

theorem validatePoints_none {d : ℕ} {pts : List (List FVal)} (h1 : pts ≠ [])
    (h2 : ∀ p ∈ pts, p.length = d) (h3 : ∀ p ∈ pts, ∀ c ∈ p, c.isFinite = true) :
    validatePoints d pts = none := by
  unfold validatePoints
  rw [if_neg, if_neg, if_neg]
  · intro hcon
    obtain ⟨p, hp, hpc⟩ := List.any_eq_true.1 hcon
    obtain ⟨c, hc, hcc⟩ := List.any_eq_true.1 hpc
    rw [h3 p hp c hc] at hcc
    simp at hcc
  · intro hcon
    obtain ⟨p, hp, hpc⟩ := List.any_eq_true.1 hcon
    rw [bne_iff_ne] at hpc
    exact hpc (h2 p hp)
  · simpa using h1

theorem build_ok_of_valid {d : ℕ} {pts : List (List FVal)} (h1 : pts ≠ [])
    (h2 : ∀ p ∈ pts, p.length = d) (h3 : ∀ p ∈ pts, ∀ c ∈ p, c.isFinite = true) :
    ∃ idx : Index, build d pts = .ok idx := by
  refine ⟨⟨d, pts.map (fun p => p.map FVal.toRat),
    buildNode (pts.map (fun p => p.map FVal.toRat)) d
      (List.range (pts.map (fun p => p.map FVal.toRat)).length) 0⟩, ?_⟩
  unfold build
  rw [validatePoints_none h1 h2 h3]

theorem validateQueries_none {d : ℕ} {qs : List (List FVal)}
    (h2 : ∀ p ∈ qs, p.length = d) (h3 : ∀ p ∈ qs, ∀ c ∈ p, c.isFinite = true) :
    validateQueries d qs = none := by
  unfold validateQueries
  rw [if_neg, if_neg]
  · intro hcon
    obtain ⟨p, hp, hpc⟩ := List.any_eq_true.1 hcon
    obtain ⟨c, hc, hcc⟩ := List.any_eq_true.1 hpc
    rw [h3 p hp c hc] at hcc
    simp at hcc
  · intro hcon
    obtain ⟨p, hp, hpc⟩ := List.any_eq_true.1 hcon
    rw [bne_iff_ne] at hpc
    exact hpc (h2 p hp)

/-! ### The parallel layer is a refinement of the sequential engine -/

theorem chunkList_nil (k : ℕ) : chunkList k ([] : List α) = [] := by
  rw [chunkList]

theorem chunkList_cons (k : ℕ) (x : α) (xs : List α) :
    chunkList k (x :: xs) = (x :: xs.take k) :: chunkList k (xs.drop k) := by
  rw [chunkList]

theorem chunkList_flatMap (k : ℕ) (f : α → List β) :
    ∀ n (l : List α), l.length ≤ n →
      (chunkList k l).flatMap (fun c => c.flatMap f) = l.flatMap f := by
  intro n
  induction n with
  | zero =>
    intro l hl
    have h0 : l = [] := List.length_eq_zero.1 (Nat.le_zero.1 hl)
    subst h0
    rw [chunkList_nil]
    rfl
  | succ n ih =>
    intro l hl
    cases l with
    | nil =>
      rw [chunkList_nil]
      rfl
    | cons x xs =>
      have ihx := ih (xs.drop k)
        (by rw [List.length_drop]; simp only [List.length_cons] at hl; omega)
      simp only [chunkList_cons, List.flatMap_cons, ihx, List.append_assoc]
      rw [← List.flatMap_append, List.take_append_drop]

theorem build_demo : build 2 demoPts = .ok demoIdx := by
  unfold build
  rw [validatePoints_none (by decide) (by decide) (by decide)]
  have hstore : demoPts.map (fun p => p.map FVal.toRat) = demoIdx.store := by decide
  simp only [hstore]
  have hlen : demoIdx.store.length = 3 := by decide
  rw [hlen, buildNode_leaf _ _ _ _ (by decide)]
  have hrange : List.range 3 = [0, 1, 2] := by decide
  rw [hrange]
  rfl

theorem snd_mem_of_mem_enum {l : List α} {iq : ℕ × α} (h : iq ∈ l.enum) : iq.2 ∈ l := by
  obtain ⟨i, a⟩ := iq
  rw [List.mk_mem_enum_iff_getElem?] at h
  exact List.getElem?_mem h

/-! ### Successful queries and their brute-force characterizations -/

theorem withinUnsorted_ok {d : ℕ} {pts : List (List FVal)} {idx : Index}
    (hb : build d pts = .ok idx) (qs : List (List FVal)) (radius : ℚ) (hr : 0 ≤ radius)
    (hq1 : ∀ p ∈ qs, p.length = d) (hq2 : ∀ p ∈ qs, ∀ c ∈ p, c.isFinite = true)
    (par : Bool) :
    withinUnsorted idx qs radius par =
      .ok (withinSeq idx ((qs.map (fun p => p.map FVal.toRat)).enum) (radius * radius)) := by
  obtain ⟨hdims, -, -, -, -, -⟩ := build_ok_spec hb
  have hval : validateQueries idx.dims qs = none := by
    rw [hdims]
    exact validateQueries_none hq1 hq2
  unfold withinUnsorted
  rw [if_neg (not_lt.2 hr), hval]
  cases par with
  | false => rfl
  | true =>
    rw [if_pos rfl]
    simp only [Except.ok.injEq]
    unfold withinSeq
    exact chunkList_flatMap chunkSize _
      ((qs.map (fun p => p.map FVal.toRat)).enum).length _ le_rfl

theorem queryPairs_ok (idx : Index) (radius : ℚ) (hr : 0 ≤ radius) (par : Bool) :
    queryPairs idx radius par =
      .ok (pairsSeq idx (List.range idx.store.length) (radius * radius)) := by
  unfold queryPairs
  rw [if_neg (not_lt.2 hr)]
  cases par with
  | false => rfl
  | true =>
    rw [if_pos rfl]
    simp only [Except.ok.injEq]
    unfold pairsSeq
    exact chunkList_flatMap chunkSize _ (List.range idx.store.length).length _ le_rfl

theorem store_lengths {d : ℕ} {pts : List (List FVal)} {idx : Index}
    (hb : build d pts = .ok idx) : ∀ p ∈ idx.store, p.length = d := by
  obtain ⟨-, hstore, -, -, hlens, -⟩ := build_ok_spec hb
  rw [hstore]
  intro p hp
  obtain ⟨p0, hp0, rfl⟩ := List.mem_map.1 hp
  simp [hlens p0 hp0]

theorem storeGetD_lengths {d : ℕ} {pts : List (List FVal)} {idx : Index}
    (hb : build d pts = .ok idx) :
    ∀ i ∈ List.range idx.store.length, (idx.store.getD i []).length = d := by
  intro i hi
  have hilt : i < idx.store.length := List.mem_range.1 hi
  have hget : idx.store.getD i [] = idx.store[i] := List.getD_eq_getElem _ _ hilt
  rw [hget]
  exact store_lengths hb _ (List.getElem_mem hilt)

theorem withinSeq_perm_brute {d : ℕ} {pts : List (List FVal)} {idx : Index}
    (hb : build d pts = .ok idx) (hd : 0 < d) (r2 : ℚ)
    (qsr : List Point) (hq : ∀ q ∈ qsr, q.length = d) :
    (withinSeq idx qsr.enum r2).Perm (bruteWithin idx.store qsr r2) := by
  obtain ⟨-, -, hroot, -, -, -⟩ := build_ok_spec hb
  apply List.Perm.flatMap_left
  intro iq hiq
  have hqlen : iq.2.length = d := hq iq.2 (snd_mem_of_mem_enum hiq)
  have hsearch := searchNode_buildNode idx.store d iq.2 r2 hd hqlen
    idx.store.length (List.range idx.store.length) 0
    (by rw [List.length_range]) (storeGetD_lengths hb)
  rw [← hroot] at hsearch
  exact hsearch.map _

theorem pairsSeq_perm_brute {d : ℕ} {pts : List (List FVal)} {idx : Index}
    (hb : build d pts = .ok idx) (hd : 0 < d) (r2 : ℚ) :
    (pairsSeq idx (List.range idx.store.length) r2).Perm (brutePairs idx.store r2) := by
  obtain ⟨-, -, hroot, -, -, -⟩ := build_ok_spec hb
  apply List.Perm.flatMap_left
  intro i hi
  have hqlen : (idx.store.getD i []).length = d := storeGetD_lengths hb i hi
  have hsearch := searchNode_buildNode idx.store d (idx.store.getD i []) r2 hd hqlen
    idx.store.length (List.range idx.store.length) 0
    (by rw [List.length_range]) (storeGetD_lengths hb)
  rw [← hroot] at hsearch
  have hfilter := hsearch.filter (fun j => decide (i < j))
  rw [List.filter_filter] at hfilter
  exact hfilter.map _

theorem brutePairs_upper_triangular (store : List Point) (r2 : ℚ) :
    ∀ row ∈ brutePairs store r2, row.1 < row.2.1 := by
  intro row hrow
  unfold brutePairs at hrow
  obtain ⟨i, -, hmap⟩ := List.mem_flatMap.1 hrow
  obtain ⟨j, hj, rfl⟩ := List.mem_map.1 hmap
  have hpred := (List.mem_filter.1 hj).2
  have hij : i < j := by
    rw [Bool.and_eq_true] at hpred
    exact of_decide_eq_true hpred.1
  simpa using hij

theorem brutePairs_nodup (store : List Point) (r2 : ℚ) :
    (brutePairs store r2).Nodup := by
  unfold brutePairs
  rw [List.nodup_flatMap]
  constructor
  · intro i _
    apply List.Nodup.map
    · intro a b hab
      simpa using congrArg (fun r => r.2.1) hab
    · exact ((List.nodup_range _).filter _)
  · apply List.Pairwise.imp ?_ (List.pairwise_lt_range _)
    intro i j hij
    intro row hrow1 hrow2
    obtain ⟨a, -, rfl⟩ := List.mem_map.1 hrow1
    obtain ⟨b, -, hb⟩ := List.mem_map.1 hrow2
    have : i = j := (congrArg (fun r => r.1) hb).symm
    omega

/-! ### Claim theorems -/

/-- C1: for every valid index and query set of matching dimension with
radius ≥ 0, the result set of withinUnsorted is (as a multiset, hence as a
set) exactly the exhaustive brute-force set of (query, point, distance)
rows at true squared distance within the squared radius: pruning drops no
in-radius match and emits no out-of-radius row. -/
theorem withinUnsorted_matches_bruteforce {d : ℕ} {pts : List (List FVal)} {idx : Index}
    (hd : 0 < d) (hb : build d pts = .ok idx) (qs : List (List FVal)) (radius : ℚ)
    (hr : 0 ≤ radius) (hq1 : ∀ p ∈ qs, p.length = d)
    (hq2 : ∀ p ∈ qs, ∀ c ∈ p, c.isFinite = true) (par : Bool) :
    ∃ rows, withinUnsorted idx qs radius par = .ok rows ∧
      rows.Perm (bruteWithin idx.store (qs.map (fun p => p.map FVal.toRat)) (radius * radius)) := by
  refine ⟨_, withinUnsorted_ok hb qs radius hr hq1 hq2 par, ?_⟩
  apply withinSeq_perm_brute hb hd
  intro q hqm
  obtain ⟨p0, hp0, rfl⟩ := List.mem_map.1 hqm
  simp [hq1 p0 hp0]

theorem withinUnsorted_matches_bruteforce_witness :
    ∃ rows, withinUnsorted demoIdx [[.finite 0, .finite 0]] (7 / 2) false = .ok rows ∧
      rows.Perm (bruteWithin demoIdx.store
        ([[.finite 0, .finite 0]].map (fun p => p.map FVal.toRat)) ((7 / 2) * (7 / 2))) :=
  withinUnsorted_matches_bruteforce (by decide) build_demo [[.finite 0, .finite 0]]
    (7 / 2) (by norm_num) (by decide) (by decide) false

/-- C2: for every valid index and radius ≥ 0, queryPairs returns (as a
multiset) exactly the upper-triangular brute-force enumeration of
in-radius pairs: every row has first index < second index, no row is
duplicated, and no self-pair or reversed pair occurs. -/
theorem queryPairs_matches_bruteforce {d : ℕ} {pts : List (List FVal)} {idx : Index}
    (hd : 0 < d) (hb : build d pts = .ok idx) (radius : ℚ) (hr : 0 ≤ radius) (par : Bool) :
    ∃ rows, queryPairs idx radius par = .ok rows ∧
      rows.Perm (brutePairs idx.store (radius * radius)) ∧
      (∀ row ∈ rows, row.1 < row.2.1) ∧ rows.Nodup := by
  refine ⟨_, queryPairs_ok idx radius hr par, ?_, ?_, ?_⟩
  · exact pairsSeq_perm_brute hb hd (radius * radius)
  · intro row hrow
    exact brutePairs_upper_triangular idx.store (radius * radius) row
      ((pairsSeq_perm_brute hb hd (radius * radius)).mem_iff.1 hrow)
  · exact ((pairsSeq_perm_brute hb hd (radius * radius)).nodup_iff).2
      (brutePairs_nodup idx.store (radius * radius))

theorem queryPairs_matches_bruteforce_witness :
    ∃ rows, queryPairs demoIdx 5 false = .ok rows ∧
      rows.Perm (brutePairs demoIdx.store (5 * 5)) ∧
      (∀ row ∈ rows, row.1 < row.2.1) ∧ rows.Nodup :=
  queryPairs_matches_bruteforce (by decide) build_demo 5 (by norm_num) false

/-- C3: for every index, query set and radius, withinUnsorted with
parallel=true returns exactly the same value as with parallel=false (list
equality, hence set equality), and likewise for queryPairs: the parallel
layer chunks the work and concatenates per-chunk results back in order. -/
theorem parallel_sequential_equiv (idx : Index) (qs : List (List FVal)) (radius : ℚ) :
    withinUnsorted idx qs radius true = withinUnsorted idx qs radius false ∧
    queryPairs idx radius true = queryPairs idx radius false := by
  constructor
  · unfold withinUnsorted
    by_cases hr : radius < 0
    · rw [if_pos hr, if_pos hr]
    · rw [if_neg hr, if_neg hr]
      cases hval : validateQueries idx.dims qs with
      | some e => rfl
      | none =>
        rw [if_pos rfl, if_neg Bool.false_ne_true]
        simp only [Except.ok.injEq]
        unfold withinSeq
        exact chunkList_flatMap chunkSize _
          ((qs.map (fun p => p.map FVal.toRat)).enum).length _ le_rfl
  · unfold queryPairs
    by_cases hr : radius < 0
    · rw [if_pos hr, if_pos hr]
    · rw [if_neg hr, if_neg hr]
      rw [if_pos rfl, if_neg Bool.false_ne_true]
      simp only [Except.ok.injEq]
      unfold pairsSeq
      exact chunkList_flatMap chunkSize _ (List.range idx.store.length).length _ le_rfl

/-- C4: build fails with EmptyInput exactly on an empty point sequence,
with InvalidDimension when some point has the wrong coordinate count, with
NonFiniteCoordinate when dimensions are fine but some coordinate is
non-finite; and it returns an Index exactly when the input is valid, so no
Index is ever produced in an error case. -/
theorem build_error_taxonomy (d : ℕ) (pts : List (List FVal)) :
    (pts = [] → build d pts = .error .emptyInput) ∧
    ((∃ p ∈ pts, p.length ≠ d) → build d pts = .error .invalidDimension) ∧
    ((∀ p ∈ pts, p.length = d) → (∃ p ∈ pts, ∃ c ∈ p, c.isFinite = false) →
      build d pts = .error .nonFiniteCoordinate) ∧
    ((pts ≠ [] ∧ (∀ p ∈ pts, p.length = d) ∧ ∀ p ∈ pts, ∀ c ∈ p, c.isFinite = true) ↔
      ∃ idx, build d pts = .ok idx) := by
  refine ⟨?_, ?_, ?_, ?_, ?_⟩
  · intro h
    subst h
    rfl
  · intro ⟨p, hp, hlen⟩
    have hne : pts.isEmpty = false := by
      cases pts with
      | nil => exact absurd hp (by simp)
      | cons a l => rfl
    unfold build validatePoints
    rw [hne, if_neg (by simp), if_pos (List.any_eq_true.2 ⟨p, hp, by simpa using hlen⟩)]
  · intro hdims ⟨p, hp, c, hc, hfin⟩
    have hne : pts.isEmpty = false := by
      cases pts with
      | nil => exact absurd hp (by simp)
      | cons a l => rfl
    have hnodim : ¬ pts.any (fun p => p.length != d) = true := by
      intro hcon
      obtain ⟨p2, hp2, hpc⟩ := List.any_eq_true.1 hcon
      rw [bne_iff_ne] at hpc
      exact hpc (hdims p2 hp2)
    unfold build validatePoints
    rw [hne, if_neg (by simp), if_neg hnodim,
      if_pos (List.any_eq_true.2 ⟨p, hp, List.any_eq_true.2 ⟨c, hc, by simp [hfin]⟩⟩)]
  · intro ⟨h1, h2, h3⟩
    exact build_ok_of_valid h1 h2 h3
  · intro ⟨idx, hidx⟩
    obtain ⟨-, -, -, hne, hdims, hfin⟩ := build_ok_spec hidx
    exact ⟨hne, hdims, hfin⟩

theorem build_error_taxonomy_witness :
    build 2 ([] : List (List FVal)) = .error .emptyInput ∧
    build 2 [[.finite 0]] = .error .invalidDimension ∧
    build 2 [[.finite 0, .nan]] = .error .nonFiniteCoordinate ∧
    (∃ idx, build 2 [[.finite 0, .finite 1]] = .ok idx) :=
  ⟨(build_error_taxonomy 2 []).1 rfl,
    (build_error_taxonomy 2 [[.finite 0]]).2.1 ⟨[.finite 0], by decide, by decide⟩,
    (build_error_taxonomy 2 [[.finite 0, .nan]]).2.2.1 (by decide)
      ⟨[.finite 0, .nan], by decide, .nan, by decide, rfl⟩,
    (build_error_taxonomy 2 [[.finite 0, .finite 1]]).2.2.2.1 (by decide)⟩

/-- C5: with a negative radius both query entry points fail with
NegativeRadius; with a nonnegative radius a query point of wrong dimension
makes withinUnsorted fail with InvalidDimension; and an error result never
carries any (partial) rows. -/
theorem query_error_taxonomy (idx : Index) (qs : List (List FVal)) (radius : ℚ)
    (par : Bool) :
    (radius < 0 → withinUnsorted idx qs radius par = .error .negativeRadius ∧
      queryPairs idx radius par = .error .negativeRadius) ∧
    (0 ≤ radius → (∃ q ∈ qs, q.length ≠ idx.dims) →
      withinUnsorted idx qs radius par = .error .invalidDimension) ∧
    (∀ e, withinUnsorted idx qs radius par = .error e →
      ∀ rows, ¬ withinUnsorted idx qs radius par = .ok rows) ∧
    (∀ e, queryPairs idx radius par = .error e →
      ∀ rows, ¬ queryPairs idx radius par = .ok rows) := by
  refine ⟨?_, ?_, ?_, ?_⟩
  · intro hr
    constructor
    · unfold withinUnsorted
      rw [if_pos hr]
    · unfold queryPairs
      rw [if_pos hr]
  · intro hr ⟨q, hq, hlen⟩
    unfold withinUnsorted
    rw [if_neg (not_lt.2 hr)]
    have hval : validateQueries idx.dims qs = some .invalidDimension := by
      unfold validateQueries
      rw [if_pos (List.any_eq_true.2 ⟨q, hq, by simpa using hlen⟩)]
    rw [hval]
  · intro e he rows hrows
    rw [he] at hrows
    exact absurd hrows (by simp)
  · intro e he rows hrows
    rw [he] at hrows
    exact absurd hrows (by simp)

theorem query_error_taxonomy_witness :
    withinUnsorted demoIdx [[.finite 0, .finite 0]] (-1) false =
      .error .negativeRadius ∧
    queryPairs demoIdx (-1) false = .error .negativeRadius ∧
    withinUnsorted demoIdx [[.finite 0]] 1 false = .error .invalidDimension :=
  ⟨((query_error_taxonomy demoIdx [[.finite 0, .finite 0]] (-1) false).1
      (by norm_num)).1,
    ((query_error_taxonomy demoIdx [[.finite 0, .finite 0]] (-1) false).1
      (by norm_num)).2,
    (query_error_taxonomy demoIdx [[.finite 0]] 1 false).2.1 (by norm_num)
      ⟨[.finite 0], by decide, by decide⟩⟩

/-- C6: build is deterministic: two successful builds over the same point
sequence yield equal indexes, and therefore identical results for every
fixed query of either kind. -/
theorem build_deterministic {d : ℕ} {pts : List (List FVal)} {idx1 idx2 : Index}
    (h1 : build d pts = .ok idx1) (h2 : build d pts = .ok idx2)
    (qs : List (List FVal)) (radius : ℚ) (par : Bool) :
    idx1 = idx2 ∧
    withinUnsorted idx1 qs radius par = withinUnsorted idx2 qs radius par ∧
    queryPairs idx1 radius par = queryPairs idx2 radius par := by
  have h := h1.symm.trans h2
  simp only [Except.ok.injEq] at h
  subst h
  exact ⟨rfl, rfl, rfl⟩

theorem build_deterministic_witness :
    demoIdx = demoIdx ∧
    withinUnsorted demoIdx [[.finite 1, .finite 1]] 2 false =
      withinUnsorted demoIdx [[.finite 1, .finite 1]] 2 false ∧
    queryPairs demoIdx 2 false = queryPairs demoIdx 2 false :=
  build_deterministic build_demo build_demo [[.finite 1, .finite 1]] 2 false

/-- C7: the index is immutable: in the explicit state-passing view both
query operations return the index unchanged, and replaying either query
against the index state returned by any earlier query gives the identical
result. -/
theorem index_immutable (idx : Index) (qs qs2 : List (List FVal))
    (radius radius2 : ℚ) (par par2 : Bool) :
    (withinUnsortedOp idx qs radius par).1 = idx ∧
    (queryPairsOp idx radius par).1 = idx ∧
    withinUnsorted (withinUnsortedOp idx qs radius par).1 qs2 radius2 par2 =
      withinUnsorted idx qs2 radius2 par2 ∧
    queryPairs (queryPairsOp idx radius par).1 radius2 par2 =
      queryPairs idx radius2 par2 :=
  ⟨rfl, rfl, rfl, rfl⟩

/-- C8: building over [[0,0],[0,3],[4,0]] with D=2 and querying pairs at
radius 5 returns exactly the rows (0,1), (0,2), (1,2) with squared
distances 9, 16, 25, whose square roots are the claimed true Euclidean
distances 3.0, 4.0, 5.0; the pair at distance exactly 5 is included
(inclusive boundary). -/
theorem queryPairs_concrete_scenario :
    build 2 demoPts = .ok demoIdx ∧
    (∀ par : Bool, queryPairs demoIdx 5 par = .ok [(0, 1, 9), (0, 2, 16), (1, 2, 25)]) ∧
    Real.sqrt 9 = 3 ∧ Real.sqrt 16 = 4 ∧ Real.sqrt 25 = 5 := by
  refine ⟨build_demo, ?_, ?_, ?_, ?_⟩
  · intro par
    rw [queryPairs_ok demoIdx 5 (by norm_num) par,
      show (5 : ℚ) * 5 = 25 by norm_num]
    congr 1
    norm_num [pairsSeq, pairRows, searchNode, inRad, sqDist, demoIdx,
      List.range_succ, List.filter_cons, List.filter_nil, List.zip_cons_cons,
      List.sum_cons, List.sum_nil, List.flatMap_cons, List.flatMap_nil]
  · rw [show (9 : ℝ) = 3 ^ 2 by norm_num, Real.sqrt_sq (by norm_num : (0 : ℝ) ≤ 3)]
  · rw [show (16 : ℝ) = 4 ^ 2 by norm_num, Real.sqrt_sq (by norm_num : (0 : ℝ) ≤ 4)]
  · rw [show (25 : ℝ) = 5 ^ 2 by norm_num, Real.sqrt_sq (by norm_num : (0 : ℝ) ≤ 5)]

/-- C9: on any non-empty valid input, build succeeds and the index holds
exactly N points; the leaves of the tree contain every original row index
exactly once, so every point sits in exactly one leaf and is retrievable
by its row index via leaf traversal. -/
theorem build_indexes_every_point {d : ℕ} {pts : List (List FVal)}
    (h1 : pts ≠ []) (h2 : ∀ p ∈ pts, p.length = d)
    (h3 : ∀ p ∈ pts, ∀ c ∈ p, c.isFinite = true) :
    ∃ idx : Index, build d pts = .ok idx ∧ idx.store.length = pts.length ∧
      (coveredIdxs idx.root).Perm (List.range pts.length) ∧
      ∀ i < pts.length, (coveredIdxs idx.root).count i = 1 := by
  obtain ⟨idx, hidx⟩ := build_ok_of_valid h1 h2 h3
  obtain ⟨-, hstore, hroot, -, -, -⟩ := build_ok_spec hidx
  have hlen : idx.store.length = pts.length := by rw [hstore, List.length_map]
  have hperm : (coveredIdxs idx.root).Perm (List.range pts.length) := by
    rw [hroot, hlen]
    exact coveredIdxs_buildNode idx.store d pts.length (List.range pts.length) 0
      (by rw [List.length_range])
  refine ⟨idx, hidx, hlen, hperm, ?_⟩
  intro i hi
  rw [hperm.count_eq]
  exact List.count_eq_one_of_mem (List.nodup_range _) (List.mem_range.2 hi)

theorem build_indexes_every_point_witness :
    ∃ idx : Index, build 2 demoPts = .ok idx ∧ idx.store.length = demoPts.length ∧
      (coveredIdxs idx.root).Perm (List.range demoPts.length) ∧
      ∀ i < demoPts.length, (coveredIdxs idx.root).count i = 1 :=
  build_indexes_every_point (by decide) (by decide) (by decide)

/-- C10: duplicate coordinate vectors are accepted: build succeeds, each
duplicate keeps its own distinct row index (the store keeps all N rows),
and queryPairs reports the coincident pair as an ordinary row at squared
distance 0. -/
theorem duplicate_points_supported {d : ℕ} {pts : List (List FVal)} {i j : ℕ}
    (hd : 0 < d) (h1 : pts ≠ []) (h2 : ∀ p ∈ pts, p.length = d)
    (h3 : ∀ p ∈ pts, ∀ c ∈ p, c.isFinite = true)
    (radius : ℚ) (hr : 0 ≤ radius) (hij : i < j) (hjlt : j < pts.length)
    (hdup : pts.getD i [] = pts.getD j []) :
    ∃ idx rows, build d pts = .ok idx ∧ idx.store.length = pts.length ∧
      queryPairs idx radius false = .ok rows ∧ ((i, j, 0) : ℕ × ℕ × ℚ) ∈ rows := by
  obtain ⟨idx, hidx⟩ := build_ok_of_valid h1 h2 h3
  obtain ⟨-, hstore, -, -, -, -⟩ := build_ok_spec hidx
  have hlen : idx.store.length = pts.length := by rw [hstore, List.length_map]
  have hsij : idx.store.getD i [] = idx.store.getD j [] := by
    rw [hstore]
    rw [List.getD_eq_getElem _ _ (by rw [List.length_map]; omega),
      List.getD_eq_getElem _ _ (by rw [List.length_map]; omega)]
    rw [List.getElem_map, List.getElem_map]
    rw [← List.getD_eq_getElem pts [] (by omega : i < pts.length),
      ← List.getD_eq_getElem pts [] (by omega : j < pts.length)]
    rw [hdup]
  have hsq : sqDist (idx.store.getD i []) (idx.store.getD j []) = 0 := by
    rw [hsij]
    exact sqDist_self _
  have hmem : ((i, j, 0) : ℕ × ℕ × ℚ) ∈ brutePairs idx.store (radius * radius) := by
    unfold brutePairs
    apply List.mem_flatMap.2
    refine ⟨i, List.mem_range.2 (by omega), ?_⟩
    apply List.mem_map.2
    refine ⟨j, List.mem_filter.2 ⟨List.mem_range.2 (by omega), ?_⟩, ?_⟩
    · rw [Bool.and_eq_true]
      refine ⟨decide_eq_true hij, ?_⟩
      unfold inRad
      apply decide_eq_true
      rw [hsq]
      positivity
    · rw [hsq]
  refine ⟨idx, _, hidx, hlen, queryPairs_ok idx radius hr false, ?_⟩
  exact (pairsSeq_perm_brute hidx hd (radius * radius)).mem_iff.2 hmem

theorem duplicate_points_supported_witness :
    ∃ idx rows, build 2 [[.finite 1, .finite 1], [.finite 1, .finite 1]] = .ok idx ∧
      idx.store.length = 2 ∧ queryPairs idx 0 false = .ok rows ∧
      ((0, 1, 0) : ℕ × ℕ × ℚ) ∈ rows :=
  duplicate_points_supported (by decide) (by decide) (by decide) (by decide) 0 le_rfl
    (by decide) (by decide) (by decide)

end KiddoPy
